import Mathlib

/-!
Shallow embedding of `robotframework_interactive/interpreter.py`
(the incremental Robot Framework interpreter) and proofs of the
specification claims about it.

The embedding keeps the source's structure: the interpreter state holds
the block-mode bookkeeping (`_last_section_name`, `_last_block_mode`) and
the five document parts (`_doc_parts`); parsed fragments are section
lists whose nodes are either leaf statements carrying tokens or blocks
carrying a header and a nested body, mirroring the Robot Framework AST
shape the source manipulates.  The external collaborators (the parser
`get_model`, and the namespace dispatch of imports / variables /
keywords / test execution) are inputs to the model: the parser as a
function argument, the dispatch as an `Option String` holding the raised
exception's text when dispatch fails.
-/

namespace RFInterp

/-- Token of the scripting language's tokenizer: its type tag, its text
value, its (1-based) line number and, for error tokens, the error
message text.  Embeds `robot.api.Token` as consumed by `interpreter.py`. -/
structure Token where
  type : String
  value : String
  lineno : Nat
  error : String
deriving Repr, DecidableEq

/-- AST node inside a section body: a leaf statement carrying tokens
(Python nodes exposing a `tokens` attribute) or a block — test case,
keyword, for-loop, ... — carrying its header statement's tokens and a
nested body (Python nodes exposing `body` and no `tokens`).  The Python
class name (`__class__.__name__`) is kept because the source dispatches
on it.  In Robot Framework the `Error` class is a statement subclass, so
only `stmt` nodes carry the name "Error". -/
inductive Node where
  | stmt (name : String) (tokens : List Token)
  | block (name : String) (header : List Token) (body : List Node)
deriving Repr

/-- The `body` attribute of a node: blocks have one, leaf statements do
not (accessing it on a statement raises `AttributeError` in the source,
modelled as `none`). -/
def Node.bodyOf : Node → Option (List Node)
  | .stmt _ _ => none
  | .block _ _ b => some b

/-- Section of a parsed model: its Python class name
(for example "TestCaseSection"), its section-header statement's tokens
and its body. -/
structure Sec where
  name : String
  header : List Token
  body : List Node
deriving Repr

/-- Parsed model, as returned by `get_model`: the list of sections. -/
structure Model where
  sections : List Sec
deriving Repr

/-- Result dictionary of `evaluate` (`ActionResultDict`). -/
structure ActionResult where
  success : Bool
  message : Option String
  result : Option String
deriving Repr, DecidableEq

/-- Returned dictionary of `compute_evaluate_text`
(`EvaluateTextTypedDict`, fields `prefix` and `full_code`). -/
structure EvaluateText where
  pre : String
  fullCode : String
deriving Repr, DecidableEq

/-- Interpreter state: `_last_section_name`, `_last_block_mode` (the
BlockModeState) and the five entries of `_doc_parts` (the
DocumentModel). -/
structure InterpState where
  lastSectionName : String
  lastBlockMode : String
  commentSection : Option Sec
  settingSection : Option Sec
  variableSection : Option Sec
  testCaseSection : Option Sec
  keywordSection : Option Sec
deriving Repr

/-- Keys of the `_doc_parts` dictionary, in its insertion order. -/
def docPartNames : List String :=
  ["CommentSection", "SettingSection", "VariableSection", "TestCaseSection",
   "KeywordSection"]

/-- The `_settings_section_name_to_block_mode` dictionary. -/
def blockModeFor : String → Option String
  | "SettingSection" => some "*** Settings ***\n"
  | "VariableSection" => some "*** Variables ***\n"
  | "TestCaseSection" => some "*** Test Case ***\nDefault Task/Test\n    "
  | "KeywordSection" => some "*** Keyword ***\n"
  | "CommentSection" => some "*** Comment ***\n"
  | _ => none

/-- The default test header, the block mode of "TestCaseSection". -/
def defaultBlockMode : String := "*** Test Case ***\nDefault Task/Test\n    "

/-- State right after `__init__`: `_last_section_name` is
"TestCaseSection", `_last_block_mode` its block mode, no document part
is populated. -/
def initialState : InterpState :=
  { lastSectionName := "TestCaseSection"
  , lastBlockMode := defaultBlockMode
  , commentSection := none
  , settingSection := none
  , variableSection := none
  , testCaseSection := none
  , keywordSection := none }

/-- Lookup `self._doc_parts[name]`. -/
def InterpState.getPart (s : InterpState) : String → Option Sec
  | "CommentSection" => s.commentSection
  | "SettingSection" => s.settingSection
  | "VariableSection" => s.variableSection
  | "TestCaseSection" => s.testCaseSection
  | "KeywordSection" => s.keywordSection
  | _ => none

/-- Assignment `self._doc_parts[name] = sec`; only ever reached for the
five known keys, so other keys leave the state unchanged. -/
def InterpState.setPart (s : InterpState) (name : String) (sec : Sec) :
    InterpState :=
  match name with
  | "CommentSection" => { s with commentSection := some sec }
  | "SettingSection" => { s with settingSection := some sec }
  | "VariableSection" => { s with variableSection := some sec }
  | "TestCaseSection" => { s with testCaseSection := some sec }
  | "KeywordSection" => { s with keywordSection := some sec }
  | _ => s

/-- Modelled from the spec: `ast_to_code`
(`robotframework_interactive/ast_to_code.py`, a module of this
repository that is not part of the provided sources) renders an AST
back to its source text; per the spec it is the DocumentModel's
"rendering the full logical document back to text", modelled as the
depth-first concatenation of token values (header first, then body). -/
def tokensToCode (ts : List Token) : String :=
  String.join (ts.map (fun t => t.value))

mutual

/-- Modelled from the spec: rendering of one AST node, see `tokensToCode`. -/
def nodeToCode : Node → String
  | .stmt _ ts => tokensToCode ts
  | .block _ h b => tokensToCode h ++ nodesToCode b

/-- Modelled from the spec: rendering of a node list, see `tokensToCode`. -/
def nodesToCode : List Node → String
  | [] => ""
  | n :: rest => nodeToCode n ++ nodesToCode rest

end

/-- Modelled from the spec: rendering of a whole section, see
`tokensToCode`. -/
def secToCode (sec : Sec) : String :=
  tokensToCode sec.header ++ nodesToCode sec.body

/-- Python's default whitespace set for `str.strip()` (its ASCII part;
the tokens this interpreter handles contain no exotic Unicode
whitespace). -/
def isPyWhitespace (c : Char) : Bool :=
  c == ' ' || c == '\t' || c == '\n' || c == '\r' || c == '\x0b' || c == '\x0c'

/-- Embeds Python's `str.strip()`: leading and trailing whitespace
removed. -/
def stripStr (s : String) : String :=
  String.mk ((((s.toList).dropWhile isPyWhitespace).reverse.dropWhile
    isPyWhitespace).reverse)

/-- Whether `p` is a prefix of `l` (character lists). -/
def listIsPre : List Char → List Char → Bool
  | [], _ => true
  | _ :: _, [] => false
  | a :: as, b :: bs => a == b && listIsPre as bs

/-- Embeds Python's `s.startswith(p)`. -/
def strStartsWith (s p : String) : Bool :=
  listIsPre p.toList s.toList

/-- The fixed section order used by `_compute_full_doc`. -/
def fullDocOrder : List String :=
  ["CommentSection", "SettingSection", "VariableSection", "KeywordSection",
   "TestCaseSection"]

/-- Section list used by `_compute_full_doc`: the fixed order, with
`lastSectionName` (when non-empty) removed and appended at the end. -/
def computeFullDocSections (lastSectionName : String) : List String :=
  if lastSectionName == "" then fullDocOrder
  else fullDocOrder.erase lastSectionName ++ [lastSectionName]

/-- One entry of `_compute_full_doc`'s list: the stripped rendering of
the part stored under `name`, skipped when absent or rendering to the
empty string. -/
def renderPart (s : InterpState) (name : String) : Option String :=
  match s.getPart name with
  | none => none
  | some sec =>
      let asCode := stripStr (secToCode sec)
      if asCode == "" then none else some asCode

/-- Embeds `_compute_full_doc(last_section_name)`. -/
def computeFullDoc (s : InterpState) (lastSectionName : String) : String :=
  stripStr (String.intercalate "\n"
    ((computeFullDocSections lastSectionName).filterMap (renderPart s)))

/-- Embeds the `full_doc` property (`_compute_full_doc()` with the
default empty last-section argument). -/
def fullDoc (s : InterpState) : String := computeFullDoc s ""

/-- Whether the string contains a line separator (the `rpartition("\n")`
delimiter test). -/
def containsNewline (str : String) : Bool :=
  str.toList.contains '\n'

/-- The text after the last line separator (the `last_line` of
`rpartition("\n")`; the whole string when there is none). -/
def lastLineOf (str : String) : String :=
  String.mk ((str.toList.reverse.takeWhile (fun c => c != '\n')).reverse)

/-- Leading run of tabs and spaces of a line, as collected by the
`for c in last_line` loop of `compute_evaluate_text`. -/
def leadingIndent (line : String) : String :=
  String.mk (line.toList.takeWhile (fun c => c == '\t' || c == ' '))

/-- Embeds `compute_evaluate_text(code, target_type)`.  The method reads
the interpreter state and assigns nothing to `self`; the state is
threaded through and returned so that the frame property is a theorem
about this definition rather than a typing artifact. -/
def computeEvaluateText (s : InterpState) (code : String)
    (targetType : String) : EvaluateText × InterpState :=
  if targetType == "completions" then
    if strStartsWith (stripStr code) "***" then
      ({ pre := fullDoc s ++ "\n"
       , fullCode := (fullDoc s ++ "\n") ++ code }, s)
    else
      if (s.getPart s.lastSectionName).isSome then
        if containsNewline (computeFullDoc s s.lastSectionName) then
          ({ pre := computeFullDoc s s.lastSectionName ++ "\n"
               ++ leadingIndent (lastLineOf (computeFullDoc s s.lastSectionName))
           , fullCode := (computeFullDoc s s.lastSectionName ++ "\n"
               ++ leadingIndent (lastLineOf (computeFullDoc s s.lastSectionName)))
               ++ code }, s)
        else
          ({ pre := computeFullDoc s s.lastSectionName
           , fullCode := computeFullDoc s s.lastSectionName ++ "\n" ++ code },
           s)
      else
        ({ pre := fullDoc s ++ "\n" ++ s.lastBlockMode
         , fullCode := (fullDoc s ++ "\n" ++ s.lastBlockMode) ++ code }, s)
  else
    if !(strStartsWith (stripStr code) "***") then
      ({ pre := s.lastBlockMode, fullCode := s.lastBlockMode ++ code }, s)
    else
      ({ pre := "", fullCode := code }, s)

/-- The error message format of `_CustomErrorReporter._format_message`:
"Error in file '<source>' on line <lineno>: <error>". -/
def formatMessage (source : String) (t : Token) : String :=
  "Error in file '" ++ source ++ "' on line " ++ toString t.lineno ++ ": "
    ++ t.error

mutual

/-- Embeds one `visit` step of `_CustomErrorReporter`: on a node whose
class name is "Error" (an `Error` statement), `visit_Error` raises a
`DataError` from the node's `FATAL_ERROR` token if it has one, else from
the node's first `ERROR` token; on every other node the generic visitor
recurses into the children in document order.  Returns the text of the
raised `DataError`, `none` when nothing is raised. -/
def checkNode (source : String) : Node → Option String
  | .stmt n ts =>
      if n == "Error" then
        match ts.find? (fun t => t.type == "FATAL_ERROR") with
        | some t => some (formatMessage source t)
        | none => (ts.find? (fun t => t.type == "ERROR")).map
            (formatMessage source)
      else none
  | .block _ _ b => checkNodes source b

/-- Depth-first visit of a node list, stopping at the first raise. -/
def checkNodes (source : String) : List Node → Option String
  | [] => none
  | n :: rest =>
      match checkNode source n with
      | some msg => some msg
      | none => checkNodes source rest

end

/-- View of a parsed model as the node list the `NodeVisitor` walks: the
sections, in order, as block nodes. -/
def modelNodes (m : Model) : List Node :=
  m.sections.map (fun sec => Node.block sec.name sec.header sec.body)

/-- Embeds `_CustomErrorReporter(code).visit(model)`: the sections are
visited in order; a section node itself carries no error tokens, so the
visit recurses into each section's body. -/
def checkModel (source : String) (m : Model) : Option String :=
  checkNodes source (modelNodes m)

/-- The synthetic end-of-line token `Token("EOL", "\n")` appended by the
merge's line-break normalization. -/
def synthEOL : Token := { type := "EOL", value := "\n", lineno := 0, error := "" }

/-- Embeds the token fix of the merge's "make sure that there is a '\n'
as the last EOL" step on a leaf's token list: if the last token is an
`EOL` with empty value its value becomes a single newline, otherwise a
synthetic newline-only `EOL` token is appended.  An empty token list
models the `tokens[-1]` `IndexError`. -/
def fixTokens : List Token → Option (List Token)
  | [] => none
  | [t] =>
      if t.type == "EOL" && t.value == "" then some [{ t with value := "\n" }]
      else some [t, synthEOL]
  | t :: u :: rest => (fixTokens (u :: rest)).map (fun ts => t :: ts)

mutual

/-- Embeds the descent `while not hasattr(last_in_body, "tokens"):
last_in_body = last_in_body.body[-1]` followed by the token fix: a leaf
statement has its tokens fixed, a block descends into the last element
of its body (`none` models the `IndexError` on an empty body). -/
def fixNode : Node → Option Node
  | .stmt n ts => (fixTokens ts).map (fun ts2 => Node.stmt n ts2)
  | .block n h b => (fixBody b).map (fun b2 => Node.block n h b2)

/-- Fix of the last element of a body (`body[-1]`); `none` on an empty
body models the `IndexError`. -/
def fixBody : List Node → Option (List Node)
  | [] => none
  | [x] => (fixNode x).map (fun x2 => [x2])
  | x :: y :: rest => (fixBody (y :: rest)).map (fun b2 => x :: b2)

end

/-- Embeds the loop `for test_case in section.body:
current.body.extend(test_case.body)`: each new test case's body is
appended onto the accumulator's last test's body.  A new element without
a `body` attribute raises `AttributeError` mid-loop; the pair returns
the partially-extended body and `false` in that case. -/
def extendLoop (acc : List Node) : List Node → List Node × Bool
  | [] => (acc, true)
  | tc :: rest =>
      match tc.bodyOf with
      | none => (acc, false)
      | some b => extendLoop (acc ++ b) rest

/-- The TestCases arm of the merge: the accumulator's last test (a block
with header `h` and body `lastBody`) absorbs the new section's test
bodies (`extendLoop`), and the extended test gets its terminating line
break normalized; a failing normalization or extension stores the
partially-extended accumulator and reports the raise. -/
def mergeTC (s : InterpState) (secName : String) (cur : Sec) (n : String)
    (h : List Token) (lastBody : List Node) (newTests : List Node) :
    InterpState × Bool :=
  if (extendLoop lastBody newTests).2 then
    match fixBody (extendLoop lastBody newTests).1 with
    | some fixed =>
        (s.setPart secName
          { cur with body := cur.body.dropLast ++ [Node.block n h fixed] },
         true)
    | none =>
        (s.setPart secName
          { cur with
            body := cur.body.dropLast
              ++ [Node.block n h (extendLoop lastBody newTests).1] },
         false)
  else
    (s.setPart secName
      { cur with
        body := cur.body.dropLast
          ++ [Node.block n h (extendLoop lastBody newTests).1] },
     false)

/-- Embeds one iteration of the merge loop of `_evaluate` (lines
359-388): a section with an empty body or whose class name is not a
`_doc_parts` key is skipped; a first section of its kind becomes the
accumulator; otherwise a "TestCaseSection" accumulator has the new test
bodies concatenated onto its last test (`mergeTC`), and any other
accumulator has the new body appended wholesale; the surviving
accumulator then gets its terminating line break normalized.  The `Bool`
is `false` when the Python code would raise
(`IndexError`/`AttributeError`), with the state holding the mutations
already performed at that point. -/
def mergeOne (s : InterpState) (sec : Sec) : InterpState × Bool :=
  if sec.body.isEmpty then (s, true)
  else if !(docPartNames.contains sec.name) then (s, true)
  else
    match s.getPart sec.name with
    | none =>
        -- `current = self._doc_parts[section_name] = section`: the
        -- assignment lands before the fix, so a failing fix leaves the
        -- unfixed section stored.
        match fixBody sec.body with
        | some b2 => (s.setPart sec.name { sec with body := b2 }, true)
        | none => (s.setPart sec.name sec, false)
    | some cur =>
        if cur.name == "TestCaseSection" then
          match cur.body.getLast? with
          | none => (s, false)  -- `current.body[-1]` IndexError
          | some lastTest =>
            match lastTest with
            | .stmt _ _ => (s, false)  -- `.body` AttributeError
            | .block n h lastBody => mergeTC s sec.name cur n h lastBody sec.body
        else
          match fixBody (cur.body ++ sec.body) with
          | some fixed => (s.setPart sec.name { cur with body := fixed }, true)
          | none =>
              (s.setPart sec.name { cur with body := cur.body ++ sec.body },
               false)

/-- The merge loop over all sections of the parsed model; an exception
aborts the loop (the remaining sections are not merged). -/
def mergeSections (s : InterpState) : List Sec → InterpState × Bool
  | [] => (s, true)
  | sec :: rest =>
      if (mergeOne s sec).2 then mergeSections (mergeOne s sec).1 rest
      else ((mergeOne s sec).1, false)

/-- The message written to `on_stderr` and wrapped into the result when
the parsed model has no sections. -/
def noSectionsMsg : String := "Unable to interpret: no sections found."

/-- Placeholder for the text of the `IndexError`/`AttributeError` the
host Python runtime raises when the merge's last-element accesses fail;
the concrete host text is not modelled and no claim depends on it. -/
def hostExceptionText : String := "host exception during document merge"

/-- Embeds lines 309-316 of `_evaluate`: the target section kind is the
fixed literal "TestCaseSection"; its block mode is looked up and, when
found, `_last_block_mode`/`_last_section_name` are reassigned, otherwise
a warning goes to `on_stderr` and the state is untouched. -/
def blockModeUpdate (s : InterpState) : InterpState × List String :=
  match blockModeFor "TestCaseSection" with
  | none => (s, ["Unable to find block mode for: TestCaseSection"])
  | some bm =>
      ({ s with lastBlockMode := bm, lastSectionName := "TestCaseSection" }, [])

/-- Outcome of one `evaluate` call: the returned `ActionResultDict`, the
interpreter state after the call, and the chunks written to the
`on_stderr` sink (for exception paths, the host traceback text is
abstracted to the exception's message). -/
structure EvalOutput where
  res : ActionResult
  state : InterpState
  stderr : List String

/-- Embeds `_evaluate` (and the top-level exception handler of
`evaluate`) from the point where the prefixed code has been parsed into
`m`.  `source` is the prefixed code string, used as the error reporter's
source label.  `dispatch` abstracts the external suite build / namespace
dispatch / test execution (§4.3 collaborators): `none` when it returns
normally, `some e` when it raises an exception rendered as `e`. -/
def evaluateModel (s : InterpState) (source : String) (m : Model)
    (dispatch : Option String) : EvalOutput :=
  if m.sections.isEmpty then
    { res := { success := false
             , message := some ("Error while evaluating: " ++ noSectionsMsg)
             , result := none }
    , state := s, stderr := [noSectionsMsg] }
  else
    match checkModel source m with
    | some err =>
        { res := { success := false
                 , message := some ("Error while evaluating: " ++ err)
                 , result := none }
        , state := s, stderr := [err] }
    | none =>
        let upd := blockModeUpdate s
        let s1 := upd.1
        let warn := upd.2
        match dispatch with
        | some e =>
            { res := { success := false
                     , message := some ("Error while evaluating: " ++ e)
                     , result := none }
            , state := s1, stderr := warn ++ [e] }
        | none =>
            let ms := mergeSections s1 m.sections
            if ms.2 then
              { res := { success := true, message := none, result := none }
              , state := ms.1, stderr := warn }
            else
              { res := { success := false
                       , message := some ("Error while evaluating: "
                           ++ hostExceptionText)
                       , result := none }
              , state := ms.1, stderr := warn ++ [hostExceptionText] }

/-- Embeds lines 280-281 of `_evaluate`: a bare fragment (whose stripped
text does not start with "***") is prefixed with the current block
mode. -/
def prefixCode (s : InterpState) (code : String) : String :=
  if !(strStartsWith (stripStr code) "***") then s.lastBlockMode ++ code else code

/-- Embeds `evaluate(code)`: the code is prefixed, parsed by the
external parser `parse` (a black box, hence a function argument), and
handed to the model-level evaluation. -/
def evaluate (parse : String → Model) (dispatch : Option String)
    (s : InterpState) (code : String) : EvalOutput :=
  let code1 := prefixCode s code
  evaluateModel s code1 (parse code1) dispatch

/-- States of one interactive session: the constructed initial state and
everything any sequence of `evaluate` calls (with any parser results and
any dispatch outcomes) can produce.  `compute_evaluate_text` assigns
nothing to the state, so it adds no transitions. -/
inductive Reachable : InterpState → Prop
  | init : Reachable initialState
  | step (parse : String → Model) (dispatch : Option String)
      (s : InterpState) (code : String) :
      Reachable s → Reachable (evaluate parse dispatch s code).state

/-- A sequence of successful evaluations, given per call the source
label and the parsed model of the (prefixed) fragment; `none` when some
call in the sequence does not succeed.  A successful call implies its
dispatch returned normally, so dispatch is `none` here. -/
def evalChain (s : InterpState) : List (String × Model) → Option InterpState
  | [] => some s
  | (src, m) :: rest =>
      if (evaluateModel s src m none).res.success then
        evalChain (evaluateModel s src m none).state rest
      else none

/-- All sections submitted by a sequence of fragments, in submission
order; the merge loop of each call processes its model's sections in
order, so a successful sequence merges exactly this list. -/
def allSections (frags : List (String × Model)) : List Sec :=
  (frags.map (fun p => p.2.sections)).flatten

/-- Token list with its trailing run of end-of-line tokens removed: the
part of a leaf statement that the merge's line-break normalization never
alters.  Comparing statement lists through this projection states order
preservation without fixing the (normalized) trailing line breaks. -/
def stripTrailEOL : List Token → List Token
  | [] => []
  | t :: rest =>
      match stripTrailEOL rest with
      | [] => if t.type == "EOL" then [] else [t]
      | r => t :: r

mutual

/-- The statement content of a node, in document order: each leaf's
tokens (trailing line-end run removed); a block contributes its header
followed by its body's statements. -/
def coreOfNode : Node → List (List Token)
  | .stmt _ ts => [stripTrailEOL ts]
  | .block _ h b => stripTrailEOL h :: coreOfList b

/-- Statement content of a node list, in order. -/
def coreOfList : List Node → List (List Token)
  | [] => []
  | n :: rest => coreOfNode n ++ coreOfList rest

end

/-- Concatenation of the `body` lists of a section's test-case entries:
what the TestCases merge appends onto the accumulator's last test. -/
def testBodiesOf : List Node → List Node
  | [] => []
  | tc :: rest => (Node.bodyOf tc).getD [] ++ testBodiesOf rest

/-- Statement content of the part stored under `k`: `none` when the
accumulator does not exist yet. -/
def partCoresOpt (s : InterpState) (k : String) : Option (List (List Token)) :=
  (s.getPart k).map (fun sec => coreOfList sec.body)

/-- Expected effect of merging one section on the accumulated statement
content of kind `k`: a first section of the kind contributes its whole
statement content; afterwards a TestCases section contributes its test
bodies' content and any other kind its whole body content, appended at
the end. -/
def coresStep (k : String) (st : Option (List (List Token))) (sec : Sec) :
    Option (List (List Token)) :=
  if sec.name == k && !sec.body.isEmpty then
    match st with
    | none => some (coreOfList sec.body)
    | some cs =>
        some (cs ++ (if k == "TestCaseSection" then
                       coreOfList (testBodiesOf sec.body)
                     else coreOfList sec.body))
  else st

/-- Fold of `coresStep` over a section list: the expected accumulated
statement content of kind `k` after merging the sections in order. -/
def coresAfter (k : String) (st : Option (List (List Token))) :
    List Sec → Option (List (List Token))
  | [] => st
  | sec :: rest => coresAfter k (coresStep k st sec) rest

mutual

/-- The last token of the terminating leaf statement of a node: a leaf's
last token; a block descends into the last element of its body. -/
def lastLeafLastToken : Node → Option Token
  | .stmt _ ts => ts.getLast?
  | .block _ _ b => lastLeafOfList b

/-- The last token of the terminating leaf statement of a node list. -/
def lastLeafOfList : List Node → Option Token
  | [] => none
  | [x] => lastLeafLastToken x
  | _ :: y :: rest => lastLeafOfList (y :: rest)

end

/-- Number of newline-only end-of-line tokens terminating a token
list. -/
def trailingNewlineTokens (ts : List Token) : Nat :=
  (ts.reverse.takeWhile (fun t => t.type == "EOL" && t.value == "\n")).length

/-- Tokens of a leaf statement (empty for a block); projection used by
concrete counterexamples. -/
def stmtTokens : Node → List Token
  | .stmt _ ts => ts
  | .block _ _ _ => []

mutual

/-- First token satisfying `p` carried by an `Error` statement anywhere
in the node, in depth-first document order.  Written from claim C2's
words (not from the source), to compare the source's behaviour against
the claimed whole-tree marker priority. -/
def findTokenNode (p : Token → Bool) : Node → Option Token
  | .stmt n ts => if n == "Error" then ts.find? p else none
  | .block _ _ b => findTokenList p b

/-- List version of `findTokenNode`. -/
def findTokenList (p : Token → Bool) : List Node → Option Token
  | [] => none
  | n :: rest =>
      match findTokenNode p n with
      | some t => some t
      | none => findTokenList p rest

end

/-- Written from claim C2's words (not from the source): raise from the
first fatal-error marker found anywhere in the tree; only when no fatal
marker exists anywhere, raise from the first recoverable-error marker. -/
def checkModelClaimC2 (source : String) (m : Model) : Option String :=
  match findTokenList (fun t => t.type == "FATAL_ERROR") (modelNodes m) with
  | some t => some (formatMessage source t)
  | none =>
      (findTokenList (fun t => t.type == "ERROR") (modelNodes m)).map
        (formatMessage source)

/-- What a single visited node raises, per the source's `visit_Error`:
an `Error` statement raises from its fatal token when present, else from
its first recoverable error token; every other node raises nothing. -/
def nodeRaise (source : String) : Node → Option String
  | .stmt n ts =>
      if n == "Error" then
        match ts.find? (fun t => t.type == "FATAL_ERROR") with
        | some t => some (formatMessage source t)
        | none => (ts.find? (fun t => t.type == "ERROR")).map
            (formatMessage source)
      else none
  | .block _ _ _ => none

mutual

/-- Depth-first preorder listing of a node and its descendants. -/
def dfNode : Node → List Node
  | .stmt n ts => [.stmt n ts]
  | .block n h b => .block n h b :: dfNodes b

/-- Depth-first preorder listing of a node list. -/
def dfNodes : List Node → List Node
  | [] => []
  | x :: rest => dfNode x ++ dfNodes rest

end

/-- Trailing run of tabs and spaces of a line.  Written from claim C7's
words (not from the source), which say the indentation is re-extracted
from the trailing whitespace of the last line. -/
def trailingWhitespaceOf (line : String) : String :=
  String.mk ((line.toList.reverse.takeWhile (fun c => c == '\t' || c == ' ')).reverse)

/-- The completion prefix claim C7 describes, written from its words
(not from the source): the rendered document with the current section
moved last, a newline, and the trailing whitespace of the last line as
indentation. -/
def claimC7Pre (s : InterpState) : String :=
  let p := computeFullDoc s s.lastSectionName
  p ++ "\n" ++ trailingWhitespaceOf (lastLineOf p)

/-- Shorthand for a non-error token used by the concrete witness data. -/
def tok (ty v : String) (ln : Nat) : Token :=
  { type := ty, value := v, lineno := ln, error := "" }

/-- A `Log    <arg>` keyword-call statement as the tokenizer produces it
inside a test body, without a trailing end-of-line token. -/
def logStmt (arg : String) : Node :=
  .stmt "KeywordCall"
    [tok "SEPARATOR" "    " 3, tok "KEYWORD" "Log" 3,
     tok "SEPARATOR" "    " 3, tok "ARGUMENT" arg 3]

/-- Same statement after the merge's line-break normalization appended
its synthetic end-of-line token. -/
def logStmtFixed (arg : String) : Node :=
  .stmt "KeywordCall"
    [tok "SEPARATOR" "    " 3, tok "KEYWORD" "Log" 3,
     tok "SEPARATOR" "    " 3, tok "ARGUMENT" arg 3, synthEOL]

/-- Tokens of a test-case section header line. -/
def tcHeader : List Token :=
  [tok "TESTCASE HEADER" "*** Test Case ***" 1, tok "EOL" "\n" 1]

/-- Tokens of the default test's name line. -/
def tcName : List Token :=
  [tok "TESTCASE NAME" "Default Task/Test" 2, tok "EOL" "\n" 2]

/-- Test-case section holding the default test with a single body
statement: the parse of one prefixed bare statement. -/
def tcSecOf (n : Node) : Sec :=
  { name := "TestCaseSection", header := tcHeader
  , body := [.block "TestCase" tcName [n]] }

/-- Parse result of the prefixed bare fragment `Log    hello`. -/
def fragHello : Model := { sections := [tcSecOf (logStmt "hello")] }

/-- Parse result of the prefixed bare fragment `Log    world`. -/
def fragWorld : Model := { sections := [tcSecOf (logStmt "world")] }

/-- The test-case accumulator stored after evaluating `fragHello` from
the initial state. -/
def curHello : Sec :=
  { name := "TestCaseSection", header := tcHeader
  , body := [.block "TestCase" tcName [logStmtFixed "hello"]] }

/-- State after one successful evaluation of `fragHello`. -/
def stateAfterHello : InterpState :=
  (evaluateModel initialState "srcHello" fragHello none).state

/-- An error token: its `error` attribute holds the message text. -/
def errTok (ln : Nat) (ty msg : String) : Token :=
  { type := ty, value := "", lineno := ln, error := msg }

/-- Concrete model for the C2 counterexample: the first `Error`
statement carries only a recoverable error marker, a later `Error`
statement carries a fatal marker. -/
def mC2 : Model :=
  { sections :=
      [{ name := "TestCaseSection", header := tcHeader
       , body :=
          [.stmt "Error" [errTok 2 "ERROR" "recoverable problem"],
           .stmt "Error" [errTok 3 "FATAL_ERROR" "fatal problem"]] }] }

/-- A `Library    <lib>` settings statement ending with a newline. -/
def libStmt (lib : String) : Node :=
  .stmt "LibraryImport"
    [tok "LIBRARY" "Library" 2, tok "SEPARATOR" "    " 2,
     tok "NAME" lib 2, tok "EOL" "\n" 2]

/-- Settings section holding one statement. -/
def settingsSecOf (n : Node) : Sec :=
  { name := "SettingSection"
  , header := [tok "SETTING HEADER" "*** Settings ***" 1, tok "EOL" "\n" 1]
  , body := [n] }

/-- State with an existing settings accumulator, for the C4
counterexample. -/
def c4State : InterpState :=
  { initialState with settingSection := some (settingsSecOf (libStmt "Collections")) }

/-- New settings section whose statement already ends with a newline
end-of-line token, for the C4 counterexample. -/
def c4NewSec : Sec := settingsSecOf (libStmt "String")

/-- State with test-case history, for the C7 counterexample and the C7
witness: the rendered document's last line is `    Log    hello`, whose
leading whitespace is four spaces and whose trailing whitespace is
empty. -/
def c7State : InterpState :=
  { initialState with testCaseSection := some (tcSecOf (logStmt "hello")) }

/-- State whose test-case accumulator renders to the single-line text
"x", for the C9 counterexample: the rendered document contains no line
separator, so `compute_evaluate_text` inserts one between prefix and
code. -/
def c9State : InterpState :=
  { initialState with
    testCaseSection :=
      some { name := "TestCaseSection", header := []
           , body := [.stmt "KeywordCall" [tok "KEYWORD" "x" 1]] } }

/-- Every stored document part is keyed by its own class name: the merge
loop stores each section under `section.__class__.__name__`.  This holds
in every state the merge can build and lets the accumulator's
"TestCaseSection" class check be read off the key. -/
def PartsNamed (s : InterpState) : Prop :=
  ∀ k sec, s.getPart k = some sec → sec.name = k

/-- State after the one-fragment chain evaluating `fragHello`, used by
the C3 witness. -/
def c3WitState : InterpState :=
  (evalChain initialState [("srcHello", fragHello)]).getD initialState

/-! Auxiliary lemmas about the state components. -/

theorem setPart_lastSectionName (s : InterpState) (k : String) (sec : Sec) :
    (s.setPart k sec).lastSectionName = s.lastSectionName := by
  unfold InterpState.setPart
  split <;> rfl

theorem setPart_lastBlockMode (s : InterpState) (k : String) (sec : Sec) :
    (s.setPart k sec).lastBlockMode = s.lastBlockMode := by
  unfold InterpState.setPart
  split <;> rfl

theorem getPart_setPart_same (s : InterpState) (k : String) (sec : Sec)
    (hk : k ∈ docPartNames) : (s.setPart k sec).getPart k = some sec := by
  simp only [docPartNames, List.mem_cons, List.mem_singleton,
    List.not_mem_nil, or_false] at hk
  rcases hk with rfl | rfl | rfl | rfl | rfl <;> rfl

theorem getPart_setPart_other (s : InterpState) (k : String) (sec : Sec)
    (k' : String) (h : k' ≠ k) :
    (s.setPart k sec).getPart k' = s.getPart k' := by
  unfold InterpState.setPart
  split <;> (try rfl) <;>
    (unfold InterpState.getPart; split <;> simp_all)

/-- The TestCases merge arm always stores one part under `secName`. -/
theorem mergeTC_state_shape (s : InterpState) (secName : String) (cur : Sec)
    (n : String) (h : List Token) (lastBody : List Node)
    (newTests : List Node) :
    ∃ sc, (mergeTC s secName cur n h lastBody newTests).1
      = s.setPart secName sc := by
  unfold mergeTC
  by_cases he : (extendLoop lastBody newTests).2
  · rw [if_pos he]
    cases hfb : fixBody (extendLoop lastBody newTests).1 with
    | none => exact ⟨_, rfl⟩
    | some fixed => exact ⟨_, rfl⟩
  · rw [if_neg he]
    exact ⟨_, rfl⟩

/-- The state after one merge step is the old state or the old state
with one part assigned under the section's class name. -/
theorem mergeOne_state_shape (s : InterpState) (sec : Sec) :
    (mergeOne s sec).1 = s ∨
    ∃ sc, (mergeOne s sec).1 = s.setPart sec.name sc := by
  unfold mergeOne
  split
  · exact Or.inl rfl
  · split
    · exact Or.inl rfl
    · cases hg : s.getPart sec.name with
      | none =>
          dsimp only
          cases hfb : fixBody sec.body with
          | none => exact Or.inr ⟨_, rfl⟩
          | some b2 => exact Or.inr ⟨_, rfl⟩
      | some cur =>
          dsimp only
          by_cases hn : cur.name == "TestCaseSection"
          · rw [if_pos hn]
            cases hl : cur.body.getLast? with
            | none => exact Or.inl rfl
            | some lastTest =>
                cases lastTest with
                | stmt a b => exact Or.inl rfl
                | block n h lastBody =>
                    exact Or.inr (mergeTC_state_shape s sec.name cur n h
                      lastBody sec.body)
          · rw [if_neg hn]
            cases hfb : fixBody (cur.body ++ sec.body) with
            | none => exact Or.inr ⟨_, rfl⟩
            | some fixed => exact Or.inr ⟨_, rfl⟩

theorem mergeOne_lastSectionName (s : InterpState) (sec : Sec) :
    ((mergeOne s sec).1).lastSectionName = s.lastSectionName := by
  rcases mergeOne_state_shape s sec with h | ⟨sc, h⟩ <;> rw [h]
  exact setPart_lastSectionName s sec.name sc

theorem mergeOne_lastBlockMode (s : InterpState) (sec : Sec) :
    ((mergeOne s sec).1).lastBlockMode = s.lastBlockMode := by
  rcases mergeOne_state_shape s sec with h | ⟨sc, h⟩ <;> rw [h]
  exact setPart_lastBlockMode s sec.name sc

theorem mergeSections_lastSectionName (l : List Sec) : ∀ s : InterpState,
    ((mergeSections s l).1).lastSectionName = s.lastSectionName := by
  induction l with
  | nil => intro s; rfl
  | cons sec rest ih =>
      intro s
      unfold mergeSections
      cases h : mergeOne s sec with
      | mk s2 ok =>
          have h2 : s2.lastSectionName = s.lastSectionName := by
            have := mergeOne_lastSectionName s sec
            rw [h] at this; exact this
          cases ok with
          | true => simpa [h2] using ih s2
          | false => simpa using h2

theorem mergeSections_lastBlockMode (l : List Sec) : ∀ s : InterpState,
    ((mergeSections s l).1).lastBlockMode = s.lastBlockMode := by
  induction l with
  | nil => intro s; rfl
  | cons sec rest ih =>
      intro s
      unfold mergeSections
      cases h : mergeOne s sec with
      | mk s2 ok =>
          have h2 : s2.lastBlockMode = s.lastBlockMode := by
            have := mergeOne_lastBlockMode s sec
            rw [h] at this; exact this
          cases ok with
          | true => simpa [h2] using ih s2
          | false => simpa using h2

theorem blockModeUpdate_eq (s : InterpState) :
    blockModeUpdate s =
      ({ s with lastSectionName := "TestCaseSection"
              , lastBlockMode := defaultBlockMode }, ([] : List String)) := rfl

/-- The state after one `evaluateModel` call is the old state, the old
state with the block mode reassigned, or the result of the merge loop on
the latter. -/
theorem evaluateModel_state_cases (s : InterpState) (src : String)
    (m : Model) (d : Option String) :
    (evaluateModel s src m d).state = s ∨
    (evaluateModel s src m d).state = (blockModeUpdate s).1 ∨
    (evaluateModel s src m d).state =
      (mergeSections (blockModeUpdate s).1 m.sections).1 := by
  unfold evaluateModel
  split
  · exact Or.inl rfl
  · cases hc : checkModel src m with
    | some err => exact Or.inl rfl
    | none =>
        dsimp only
        cases d with
        | some e => exact Or.inr (Or.inl rfl)
        | none =>
            dsimp only
            by_cases hok : (mergeSections (blockModeUpdate s).1 m.sections).2
            · rw [if_pos hok]; exact Or.inr (Or.inr rfl)
            · rw [if_neg hok]; exact Or.inr (Or.inr rfl)

/-- The BlockModeState invariant: every reachable state carries the
constant section name and block mode. -/
theorem reachable_blockMode (s : InterpState) (h : Reachable s) :
    s.lastSectionName = "TestCaseSection" ∧
    s.lastBlockMode = defaultBlockMode := by
  induction h with
  | init => exact ⟨rfl, rfl⟩
  | step parse dispatch s code hs ih =>
      have heval : (evaluate parse dispatch s code).state
          = (evaluateModel s (prefixCode s code)
              (parse (prefixCode s code)) dispatch).state := rfl
      rw [heval]
      rcases evaluateModel_state_cases s (prefixCode s code)
          (parse (prefixCode s code)) dispatch with h1 | h1 | h1 <;> rw [h1]
      · exact ih
      · exact ⟨rfl, rfl⟩
      · refine ⟨?_, ?_⟩
        · rw [mergeSections_lastSectionName]; rfl
        · rw [mergeSections_lastBlockMode]; rfl

/-- A reachable state whose block-mode fields are rewritten to the
constants is the state itself. -/
theorem blockModeRewrite_eq_self (s : InterpState) (hr : Reachable s) :
    ({ s with lastSectionName := "TestCaseSection"
            , lastBlockMode := defaultBlockMode } : InterpState) = s := by
  obtain ⟨h1, h2⟩ := reachable_blockMode s hr
  cases s
  simp_all

/-! Claim theorems. -/

/-- Claim C10: in every reachable state the BlockModeState is constant —
the section kind is "TestCaseSection" and the block prefix is the
default test header — so bare fragments are always prefixed into the
default test, whatever was evaluated before. -/
theorem c10_block_mode_constant (s : InterpState) (h : Reachable s) :
    s.lastSectionName = "TestCaseSection" ∧
    s.lastBlockMode = "*** Test Case ***\nDefault Task/Test\n    " ∧
    ∀ code : String, strStartsWith (stripStr code) "***" = false →
      prefixCode s code
        = "*** Test Case ***\nDefault Task/Test\n    " ++ code := by
  obtain ⟨h1, h2⟩ := reachable_blockMode s h
  refine ⟨h1, h2, ?_⟩
  intro code hc
  unfold prefixCode
  rw [hc]
  simpa using congrArg (fun x => x ++ code) h2

/-- Witness for C10 at the initial state. -/
theorem c10_witness :
    initialState.lastSectionName = "TestCaseSection" ∧
    initialState.lastBlockMode = "*** Test Case ***\nDefault Task/Test\n    " ∧
    ∀ code : String, strStartsWith (stripStr code) "***" = false →
      prefixCode initialState code
        = "*** Test Case ***\nDefault Task/Test\n    " ++ code :=
  c10_block_mode_constant initialState Reachable.init

/-- Claim C1: an evaluate call that fails because the parsed model has
no sections, because validation raises, or because the namespace
dispatch raises, returns success = false and leaves the state — hence
the rendered full document and the BlockModeState — byte-for-byte
unchanged: no partial merge happens on those failures. -/
theorem c1_no_mutation_on_failure (parse : String → Model)
    (dispatch : Option String) (s : InterpState) (code : String)
    (hr : Reachable s)
    (hfail : (parse (prefixCode s code)).sections = [] ∨
             (checkModel (prefixCode s code)
               (parse (prefixCode s code))).isSome = true ∨
             dispatch.isSome = true) :
    (evaluate parse dispatch s code).res.success = false ∧
    (evaluate parse dispatch s code).state = s ∧
    fullDoc (evaluate parse dispatch s code).state = fullDoc s ∧
    (evaluate parse dispatch s code).state.lastSectionName
      = s.lastSectionName ∧
    (evaluate parse dispatch s code).state.lastBlockMode
      = s.lastBlockMode := by
  have key : (evaluate parse dispatch s code).res.success = false ∧
      (evaluate parse dispatch s code).state = s := by
    show (evaluateModel s (prefixCode s code) (parse (prefixCode s code))
        dispatch).res.success = false ∧
      (evaluateModel s (prefixCode s code) (parse (prefixCode s code))
        dispatch).state = s
    by_cases hemp : (parse (prefixCode s code)).sections.isEmpty = true
    · unfold evaluateModel
      rw [if_pos hemp]
      exact ⟨rfl, rfl⟩
    · cases hc : checkModel (prefixCode s code) (parse (prefixCode s code)) with
      | some err =>
          unfold evaluateModel
          rw [if_neg hemp, hc]
          exact ⟨rfl, rfl⟩
      | none =>
          cases hd : dispatch with
          | some e =>
              unfold evaluateModel
              rw [if_neg hemp, hc]
              refine ⟨rfl, ?_⟩
              show (blockModeUpdate s).1 = s
              rw [blockModeUpdate_eq]
              exact blockModeRewrite_eq_self s hr
          | none =>
              rcases hfail with hnil | hsum | hdisp
              · exact absurd (by simp [hnil]) hemp
              · rw [hc] at hsum; simp at hsum
              · rw [hd] at hdisp; simp at hdisp
  exact ⟨key.1, key.2, by rw [key.2], by rw [key.2], by rw [key.2]⟩

/-- Witness for C1: an empty parse at the initial state. -/
theorem c1_witness :
    (evaluate (fun _ => { sections := [] }) none initialState
        "Log    hello").res.success = false ∧
    (evaluate (fun _ => { sections := [] }) none initialState
        "Log    hello").state = initialState ∧
    fullDoc (evaluate (fun _ => { sections := [] }) none initialState
        "Log    hello").state = fullDoc initialState ∧
    (evaluate (fun _ => { sections := [] }) none initialState
        "Log    hello").state.lastSectionName
      = initialState.lastSectionName ∧
    (evaluate (fun _ => { sections := [] }) none initialState
        "Log    hello").state.lastBlockMode
      = initialState.lastBlockMode :=
  c1_no_mutation_on_failure (fun _ => { sections := [] }) none initialState
    "Log    hello" Reachable.init (Or.inl rfl)

/-- Claim C8: an evaluate call whose (possibly prefixed) code parses to
zero sections reports the problem on the stderr sink, returns a failed
result whose message starts with "Error while evaluating:", a null
result payload, and leaves the state untouched; nothing is raised, the
call returns normally. -/
theorem c8_empty_input (parse : String → Model) (dispatch : Option String)
    (s : InterpState) (code : String)
    (h : (parse (prefixCode s code)).sections = []) :
    (evaluate parse dispatch s code).res =
      { success := false
      , message := some ("Error while evaluating: " ++ noSectionsMsg)
      , result := none } ∧
    (evaluate parse dispatch s code).state = s ∧
    (evaluate parse dispatch s code).stderr = [noSectionsMsg] ∧
    ∃ msg, (evaluate parse dispatch s code).res.message = some msg ∧
      strStartsWith msg "Error while evaluating:" = true := by
  have hemp : (parse (prefixCode s code)).sections.isEmpty = true := by
    simp [h]
  have hout : evaluate parse dispatch s code =
      { res := { success := false
               , message := some ("Error while evaluating: " ++ noSectionsMsg)
               , result := none }
      , state := s, stderr := [noSectionsMsg] } := by
    show evaluateModel s (prefixCode s code) (parse (prefixCode s code))
        dispatch = _
    unfold evaluateModel
    rw [if_pos hemp]
  refine ⟨by rw [hout], by rw [hout], by rw [hout], ?_⟩
  refine ⟨"Error while evaluating: " ++ noSectionsMsg, by rw [hout], ?_⟩
  decide

/-- Witness for C8: an empty parse at the initial state. -/
theorem c8_witness :
    (evaluate (fun _ => { sections := [] }) none initialState "Log").res =
      { success := false
      , message := some ("Error while evaluating: " ++ noSectionsMsg)
      , result := none } ∧
    (evaluate (fun _ => { sections := [] }) none initialState "Log").state
      = initialState ∧
    (evaluate (fun _ => { sections := [] }) none initialState "Log").stderr
      = [noSectionsMsg] ∧
    ∃ msg, (evaluate (fun _ => { sections := [] }) none initialState
        "Log").res.message = some msg ∧
      strStartsWith msg "Error while evaluating:" = true :=
  c8_empty_input (fun _ => { sections := [] }) none initialState "Log" rfl

/-- Claim C6: `compute_evaluate_text` is side-effect-free and
deterministic: the state after the call is the state before it, and
repeating the call on the resulting state returns the same
prefix/full-code pair. -/
theorem c6_pure_and_deterministic (s : InterpState)
    (code targetType : String) :
    (computeEvaluateText s code targetType).2 = s ∧
    computeEvaluateText ((computeEvaluateText s code targetType).2) code
        targetType
      = computeEvaluateText s code targetType := by
  have h2 : (computeEvaluateText s code targetType).2 = s := by
    unfold computeEvaluateText
    repeat' split
    all_goals rfl
  exact ⟨h2, by rw [h2]⟩

/-- Counterexample to claim C9 as stated: in the completion branch where
the rendered document has no line separator, `full_code` is the prefix,
a line separator, and the code — not the plain concatenation of prefix
and code. -/
theorem c9_counterexample :
    (computeEvaluateText c9State "Log    hello" "completions").1.fullCode ≠
      (computeEvaluateText c9State "Log    hello" "completions").1.pre
        ++ "Log    hello" ∧
    (computeEvaluateText c9State "Log    hello" "completions").1 =
      { pre := "x", fullCode := "x\nLog    hello" } := by
  constructor
  · have ha : (computeEvaluateText c9State "Log    hello"
        "completions").1.fullCode = "x\nLog    hello" := rfl
    have hb : (computeEvaluateText c9State "Log    hello"
        "completions").1.pre ++ "Log    hello" = "xLog    hello" := rfl
    rw [ha, hb]
    decide
  · rfl

/-- Claim C9 amended: `full_code = prefix ++ code` in every case except
the completion request on a bare fragment with section history whose
rendered document contains no line separator; there
`full_code = prefix ++ "\n" ++ code`. -/
theorem c9_fullcode_decomposition (s : InterpState)
    (code targetType : String) :
    (computeEvaluateText s code targetType).1.fullCode
      = (computeEvaluateText s code targetType).1.pre ++ code ∨
    (targetType = "completions" ∧
     strStartsWith (stripStr code) "***" = false ∧
     (s.getPart s.lastSectionName).isSome = true ∧
     containsNewline (computeFullDoc s s.lastSectionName) = false ∧
     (computeEvaluateText s code targetType).1.fullCode
       = (computeEvaluateText s code targetType).1.pre ++ "\n" ++ code) := by
  unfold computeEvaluateText
  by_cases ht : (targetType == "completions") = true
  · rw [if_pos ht]
    by_cases hstars : strStartsWith (stripStr code) "***" = true
    · rw [if_pos hstars]
      exact Or.inl rfl
    · rw [if_neg hstars]
      by_cases hh : (s.getPart s.lastSectionName).isSome = true
      · rw [if_pos hh]
        by_cases hnl : containsNewline (computeFullDoc s s.lastSectionName)
            = true
        · rw [if_pos hnl]
          exact Or.inl rfl
        · rw [if_neg hnl]
          refine Or.inr ⟨eq_of_beq ht, ?_, hh, ?_, rfl⟩
          · simpa using hstars
          · simpa using hnl
      · rw [if_neg hh]
        exact Or.inl rfl
  · rw [if_neg ht]
    by_cases hstars : strStartsWith (stripStr code) "***" = true
    · rw [if_neg (by simp [hstars])]
      exact Or.inl rfl
    · rw [if_pos (by simp at hstars; simp [hstars])]
      exact Or.inl rfl

theorem head?_filterMap_append {α β : Type} (f : α → Option β)
    (l₁ l₂ : List α) :
    ((l₁ ++ l₂).filterMap f).head? =
      (match (l₁.filterMap f).head? with
       | some b => some b
       | none => (l₂.filterMap f).head?) := by
  rw [List.filterMap_append]
  cases h : l₁.filterMap f with
  | nil => simp
  | cons b rest => simp

mutual

theorem checkNode_df (source : String) : (n : Node) →
    checkNode source n = ((dfNode n).filterMap (nodeRaise source)).head?
  | .stmt nm ts => by
      have hsame : checkNode source (.stmt nm ts)
          = nodeRaise source (.stmt nm ts) := rfl
      rw [hsame]
      cases h : nodeRaise source (Node.stmt nm ts) <;>
        simp [dfNode, List.filterMap_cons, h]
  | .block nm h b => by
      have hb : checkNode source (.block nm h b) = checkNodes source b := rfl
      rw [hb, checkNodes_df source b]
      have hr : nodeRaise source (.block nm h b) = none := rfl
      rw [show dfNode (.block nm h b) = .block nm h b :: dfNodes b from rfl]
      rw [List.filterMap_cons, hr]

theorem checkNodes_df (source : String) : (l : List Node) →
    checkNodes source l = ((dfNodes l).filterMap (nodeRaise source)).head?
  | [] => rfl
  | n :: rest => by
      rw [show dfNodes (n :: rest) = dfNode n ++ dfNodes rest from rfl]
      rw [head?_filterMap_append]
      rw [← checkNode_df source n, ← checkNodes_df source rest]
      cases h : checkNode source n with
      | none => simp [checkNodes, h]
      | some msg => simp [checkNodes, h]

end

/-- Counterexample to claim C2 as stated: in a tree whose first `Error`
node carries only a recoverable marker while a later node carries a
fatal marker, validation raises the recoverable error of the first node,
not the fatal error found later in the tree. -/
theorem c2_counterexample :
    checkModel "s.robot" mC2 ≠ checkModelClaimC2 "s.robot" mC2 ∧
    checkModel "s.robot" mC2
      = some "Error in file 's.robot' on line 2: recoverable problem" ∧
    checkModelClaimC2 "s.robot" mC2
      = some "Error in file 's.robot' on line 3: fatal problem" := by
  refine ⟨?_, rfl, rfl⟩
  have h1 : checkModel "s.robot" mC2
      = some "Error in file 's.robot' on line 2: recoverable problem" := rfl
  have h2 : checkModelClaimC2 "s.robot" mC2
      = some "Error in file 's.robot' on line 3: fatal problem" := rfl
  rw [h1, h2]
  decide

/-- Claim C2 amended: validation visits the nodes in depth-first
document order and raises at the first `Error` node carrying any
marker — from that node's fatal marker when it has one, else from the
node's first recoverable marker; the raised message embeds the source
label, the token's line number, and the marker's message text
(`formatMessage`, inside `nodeRaise`). -/
theorem c2_first_error_node_wins (source : String) (m : Model) :
    checkModel source m
      = ((dfNodes (modelNodes m)).filterMap (nodeRaise source)).head? :=
  checkNodes_df source (modelNodes m)

theorem fixTokens_lastToken : ∀ ts ts', fixTokens ts = some ts' →
    ∃ t, ts'.getLast? = some t ∧ t.type = "EOL" ∧ t.value = "\n"
  | [], _, h => by simp [fixTokens] at h
  | [t], ts', h => by
      unfold fixTokens at h
      by_cases hc : (t.type == "EOL" && t.value == "") = true
      · rw [if_pos hc] at h
        obtain rfl : ts' = [{ t with value := "\n" }] := (Option.some.inj h).symm
        simp only [Bool.and_eq_true, beq_iff_eq] at hc
        exact ⟨{ t with value := "\n" }, rfl, hc.1, rfl⟩
      · rw [if_neg hc] at h
        obtain rfl : ts' = [t, synthEOL] := (Option.some.inj h).symm
        exact ⟨synthEOL, rfl, rfl, rfl⟩
  | t :: u :: rest, ts', h => by
      unfold fixTokens at h
      cases hf : fixTokens (u :: rest) with
      | none => rw [hf] at h; simp at h
      | some ts2 =>
          rw [hf] at h
          simp only [Option.map_some', Option.some.injEq] at h
          obtain ⟨t2, hlast, hty, hv⟩ := fixTokens_lastToken (u :: rest) ts2 hf
          refine ⟨t2, ?_, hty, hv⟩
          rw [← h]
          have hne : ts2 ≠ [] := by
            intro hh; rw [hh] at hlast; simp at hlast
          obtain ⟨c, cs, rfl⟩ := List.exists_cons_of_ne_nil hne
          rw [List.getLast?_cons_cons]
          exact hlast

mutual

theorem fixNode_lastLeaf : ∀ n n', fixNode n = some n' →
    ∃ t, lastLeafLastToken n' = some t ∧ t.type = "EOL" ∧ t.value = "\n"
  | .stmt nm ts, n', h => by
      unfold fixNode at h
      cases hf : fixTokens ts with
      | none => rw [hf] at h; simp at h
      | some ts2 =>
          rw [hf] at h
          simp only [Option.map_some', Option.some.injEq] at h
          obtain ⟨t, hl, hty, hv⟩ := fixTokens_lastToken ts ts2 hf
          refine ⟨t, ?_, hty, hv⟩
          rw [← h]
          exact hl
  | .block nm hd b, n', h => by
      unfold fixNode at h
      cases hf : fixBody b with
      | none => rw [hf] at h; simp at h
      | some b2 =>
          rw [hf] at h
          simp only [Option.map_some', Option.some.injEq] at h
          obtain ⟨t, hl, hty, hv⟩ := fixBody_lastLeaf b b2 hf
          refine ⟨t, ?_, hty, hv⟩
          rw [← h]
          exact hl

theorem fixBody_lastLeaf : ∀ b b', fixBody b = some b' →
    ∃ t, lastLeafOfList b' = some t ∧ t.type = "EOL" ∧ t.value = "\n"
  | [], _, h => by simp [fixBody] at h
  | [x], b', h => by
      unfold fixBody at h
      cases hf : fixNode x with
      | none => rw [hf] at h; simp at h
      | some x2 =>
          rw [hf] at h
          simp only [Option.map_some', Option.some.injEq] at h
          obtain ⟨t, hl, hty, hv⟩ := fixNode_lastLeaf x x2 hf
          refine ⟨t, ?_, hty, hv⟩
          rw [← h]
          exact hl
  | x :: y :: rest, b', h => by
      unfold fixBody at h
      cases hf : fixBody (y :: rest) with
      | none => rw [hf] at h; simp at h
      | some b2 =>
          rw [hf] at h
          simp only [Option.map_some', Option.some.injEq] at h
          obtain ⟨t, hl, hty, hv⟩ := fixBody_lastLeaf (y :: rest) b2 hf
          refine ⟨t, ?_, hty, hv⟩
          rw [← h]
          have hne : b2 ≠ [] := by
            intro hh; rw [hh] at hl; simp [lastLeafOfList] at hl
          obtain ⟨c, cs, rfl⟩ := List.exists_cons_of_ne_nil hne
          show lastLeafOfList (c :: cs) = some t
          exact hl

end

theorem lastLeafOfList_append_single : ∀ (xs : List Node) (x : Node),
    lastLeafOfList (xs ++ [x]) = lastLeafLastToken x
  | [], x => rfl
  | [a], x => rfl
  | a :: b :: rest, x => by
      show lastLeafOfList ((b :: rest) ++ [x]) = lastLeafLastToken x
      exact lastLeafOfList_append_single (b :: rest) x

/-! Branch equations for `mergeOne` and `mergeTC`. -/

theorem mergeOne_eq_skip_empty (s : InterpState) (sec : Sec)
    (h : sec.body.isEmpty = true) : mergeOne s sec = (s, true) := by
  unfold mergeOne
  rw [if_pos h]

theorem mergeOne_eq_skip_unknown (s : InterpState) (sec : Sec)
    (h1 : sec.body.isEmpty = false)
    (h2 : docPartNames.contains sec.name = false) :
    mergeOne s sec = (s, true) := by
  unfold mergeOne
  rw [if_neg (by simp [h1]), if_pos (by rw [h2]; rfl)]

theorem mergeOne_eq_create (s : InterpState) (sec : Sec) (b2 : List Node)
    (h1 : sec.body.isEmpty = false)
    (h2 : docPartNames.contains sec.name = true)
    (hg : s.getPart sec.name = none) (hfb : fixBody sec.body = some b2) :
    mergeOne s sec = (s.setPart sec.name { sec with body := b2 }, true) := by
  unfold mergeOne
  rw [if_neg (by simp [h1]), if_neg (by rw [h2]; decide), hg]
  dsimp only
  rw [hfb]

theorem mergeOne_eq_create_fail (s : InterpState) (sec : Sec)
    (h1 : sec.body.isEmpty = false)
    (h2 : docPartNames.contains sec.name = true)
    (hg : s.getPart sec.name = none) (hfb : fixBody sec.body = none) :
    mergeOne s sec = (s.setPart sec.name sec, false) := by
  unfold mergeOne
  rw [if_neg (by simp [h1]), if_neg (by rw [h2]; decide), hg]
  dsimp only
  rw [hfb]

theorem mergeOne_eq_tc (s : InterpState) (sec cur : Sec) (n : String)
    (h : List Token) (lastBody : List Node)
    (h1 : sec.body.isEmpty = false)
    (h2 : docPartNames.contains sec.name = true)
    (hg : s.getPart sec.name = some cur)
    (hn : (cur.name == "TestCaseSection") = true)
    (hl : cur.body.getLast? = some (.block n h lastBody)) :
    mergeOne s sec = mergeTC s sec.name cur n h lastBody sec.body := by
  unfold mergeOne
  rw [if_neg (by simp [h1]), if_neg (by rw [h2]; decide), hg]
  dsimp only
  rw [if_pos hn, hl]

theorem mergeOne_eq_tc_noLast (s : InterpState) (sec cur : Sec)
    (h1 : sec.body.isEmpty = false)
    (h2 : docPartNames.contains sec.name = true)
    (hg : s.getPart sec.name = some cur)
    (hn : (cur.name == "TestCaseSection") = true)
    (hl : cur.body.getLast? = none) :
    mergeOne s sec = (s, false) := by
  unfold mergeOne
  rw [if_neg (by simp [h1]), if_neg (by rw [h2]; decide), hg]
  dsimp only
  rw [if_pos hn, hl]

theorem mergeOne_eq_tc_stmtLast (s : InterpState) (sec cur : Sec)
    (a : String) (b : List Token)
    (h1 : sec.body.isEmpty = false)
    (h2 : docPartNames.contains sec.name = true)
    (hg : s.getPart sec.name = some cur)
    (hn : (cur.name == "TestCaseSection") = true)
    (hl : cur.body.getLast? = some (.stmt a b)) :
    mergeOne s sec = (s, false) := by
  unfold mergeOne
  rw [if_neg (by simp [h1]), if_neg (by rw [h2]; decide), hg]
  dsimp only
  rw [if_pos hn, hl]

theorem mergeOne_eq_extend (s : InterpState) (sec cur : Sec)
    (fixed : List Node)
    (h1 : sec.body.isEmpty = false)
    (h2 : docPartNames.contains sec.name = true)
    (hg : s.getPart sec.name = some cur)
    (hn : (cur.name == "TestCaseSection") = false)
    (hfb : fixBody (cur.body ++ sec.body) = some fixed) :
    mergeOne s sec
      = (s.setPart sec.name { cur with body := fixed }, true) := by
  unfold mergeOne
  rw [if_neg (by simp [h1]), if_neg (by rw [h2]; decide), hg]
  dsimp only
  rw [if_neg (by simp [hn]), hfb]

theorem mergeOne_eq_extend_fail (s : InterpState) (sec cur : Sec)
    (h1 : sec.body.isEmpty = false)
    (h2 : docPartNames.contains sec.name = true)
    (hg : s.getPart sec.name = some cur)
    (hn : (cur.name == "TestCaseSection") = false)
    (hfb : fixBody (cur.body ++ sec.body) = none) :
    mergeOne s sec
      = (s.setPart sec.name { cur with body := cur.body ++ sec.body },
         false) := by
  unfold mergeOne
  rw [if_neg (by simp [h1]), if_neg (by rw [h2]; decide), hg]
  dsimp only
  rw [if_neg (by simp [hn]), hfb]

theorem mergeTC_eq_ok (s : InterpState) (secName : String) (cur : Sec)
    (n : String) (h : List Token) (lastBody newTests fixed : List Node)
    (he : (extendLoop lastBody newTests).2 = true)
    (hfb : fixBody (extendLoop lastBody newTests).1 = some fixed) :
    mergeTC s secName cur n h lastBody newTests
      = (s.setPart secName
          { cur with body := cur.body.dropLast ++ [Node.block n h fixed] },
         true) := by
  unfold mergeTC
  rw [if_pos he, hfb]

theorem mergeTC_eq_fix_fail (s : InterpState) (secName : String) (cur : Sec)
    (n : String) (h : List Token) (lastBody newTests : List Node)
    (he : (extendLoop lastBody newTests).2 = true)
    (hfb : fixBody (extendLoop lastBody newTests).1 = none) :
    mergeTC s secName cur n h lastBody newTests
      = (s.setPart secName
          { cur with
            body := cur.body.dropLast
              ++ [Node.block n h (extendLoop lastBody newTests).1] },
         false) := by
  unfold mergeTC
  rw [if_pos he, hfb]

theorem mergeTC_eq_extend_fail (s : InterpState) (secName : String)
    (cur : Sec) (n : String) (h : List Token) (lastBody newTests : List Node)
    (he : (extendLoop lastBody newTests).2 = false) :
    mergeTC s secName cur n h lastBody newTests
      = (s.setPart secName
          { cur with
            body := cur.body.dropLast
              ++ [Node.block n h (extendLoop lastBody newTests).1] },
         false) := by
  unfold mergeTC
  rw [if_neg (by simp [he])]

/-- Exhaustive characterization of a successful `mergeOne` step. -/
theorem mergeOne_success_cases (s : InterpState) (sec : Sec)
    (hok : (mergeOne s sec).2 = true) :
    ((sec.body.isEmpty = true ∨ docPartNames.contains sec.name = false) ∧
      mergeOne s sec = (s, true)) ∨
    (∃ b2, sec.body.isEmpty = false ∧
      docPartNames.contains sec.name = true ∧
      s.getPart sec.name = none ∧ fixBody sec.body = some b2 ∧
      mergeOne s sec
        = (s.setPart sec.name { sec with body := b2 }, true)) ∨
    (∃ cur n h lastBody fixed,
      sec.body.isEmpty = false ∧ docPartNames.contains sec.name = true ∧
      s.getPart sec.name = some cur ∧ cur.name = "TestCaseSection" ∧
      cur.body.getLast? = some (.block n h lastBody) ∧
      (extendLoop lastBody sec.body).2 = true ∧
      fixBody (extendLoop lastBody sec.body).1 = some fixed ∧
      mergeOne s sec = (s.setPart sec.name
        { cur with body := cur.body.dropLast ++ [Node.block n h fixed] },
        true)) ∨
    (∃ cur fixed,
      sec.body.isEmpty = false ∧ docPartNames.contains sec.name = true ∧
      s.getPart sec.name = some cur ∧ cur.name ≠ "TestCaseSection" ∧
      fixBody (cur.body ++ sec.body) = some fixed ∧
      mergeOne s sec
        = (s.setPart sec.name { cur with body := fixed }, true)) := by
  by_cases h1 : sec.body.isEmpty = true
  · exact Or.inl ⟨Or.inl h1, mergeOne_eq_skip_empty s sec h1⟩
  · have h1' : sec.body.isEmpty = false := by simpa using h1
    by_cases h2 : docPartNames.contains sec.name = true
    · cases hg : s.getPart sec.name with
      | none =>
          cases hfb : fixBody sec.body with
          | none =>
              rw [mergeOne_eq_create_fail s sec h1' h2 hg hfb] at hok
              simp at hok
          | some b2 =>
              exact Or.inr (Or.inl ⟨b2, h1', h2, rfl, rfl,
                mergeOne_eq_create s sec b2 h1' h2 hg hfb⟩)
      | some cur =>
          by_cases hn : (cur.name == "TestCaseSection") = true
          · cases hl : cur.body.getLast? with
            | none =>
                rw [mergeOne_eq_tc_noLast s sec cur h1' h2 hg hn hl] at hok
                simp at hok
            | some lastTest =>
                cases lastTest with
                | stmt a b =>
                    rw [mergeOne_eq_tc_stmtLast s sec cur a b h1' h2 hg hn
                      hl] at hok
                    simp at hok
                | block n h lastBody =>
                    rw [mergeOne_eq_tc s sec cur n h lastBody h1' h2 hg hn
                      hl] at hok
                    by_cases he : (extendLoop lastBody sec.body).2 = true
                    · cases hfb : fixBody (extendLoop lastBody sec.body).1 with
                      | none =>
                          rw [mergeTC_eq_fix_fail s sec.name cur n h lastBody
                            sec.body he hfb] at hok
                          simp at hok
                      | some fixed =>
                          refine Or.inr (Or.inr (Or.inl
                            ⟨cur, n, h, lastBody, fixed, h1', h2, rfl,
                             by simpa using hn, hl, he, hfb, ?_⟩))
                          rw [mergeOne_eq_tc s sec cur n h lastBody h1' h2 hg
                            hn hl]
                          exact mergeTC_eq_ok s sec.name cur n h lastBody
                            sec.body fixed he hfb
                    · have he' : (extendLoop lastBody sec.body).2 = false := by
                        simpa using he
                      rw [mergeTC_eq_extend_fail s sec.name cur n h lastBody
                        sec.body he'] at hok
                      simp at hok
          · have hn' : (cur.name == "TestCaseSection") = false := by
              simpa using hn
            cases hfb : fixBody (cur.body ++ sec.body) with
            | none =>
                rw [mergeOne_eq_extend_fail s sec cur h1' h2 hg hn' hfb] at hok
                simp at hok
            | some fixed =>
                exact Or.inr (Or.inr (Or.inr ⟨cur, fixed, h1', h2, rfl,
                  by simpa using hn', hfb,
                  mergeOne_eq_extend s sec cur fixed h1' h2 hg hn' hfb⟩))
    · have h2' : docPartNames.contains sec.name = false := by
        simpa using h2
      exact Or.inl ⟨Or.inr h2', mergeOne_eq_skip_unknown s sec h1' h2'⟩

/-- Claim C4 amended: after every successful merge of a parsed section
the stored accumulator's terminating leaf statement ends with a
newline-only end-of-line token — a well-formed line break — obtained by
setting an empty trailing line-end token to a newline or by appending a
synthetic newline-only line-end token; (the break is not always unique:
see the counterexample for the claim's "exactly one"). -/
theorem c4_terminating_newline (s : InterpState) (sec : Sec)
    (hok : (mergeOne s sec).2 = true)
    (hne : sec.body.isEmpty = false)
    (hmem : docPartNames.contains sec.name = true) :
    ∃ part t, (mergeOne s sec).1.getPart sec.name = some part ∧
      lastLeafOfList part.body = some t ∧
      t.type = "EOL" ∧ t.value = "\n" := by
  have hmem' : sec.name ∈ docPartNames := by simpa using hmem
  rcases mergeOne_success_cases s sec hok with
      ⟨hskip, _⟩ |
      ⟨b2, _, _, hg, hfb, heq⟩ |
      ⟨cur, n, h, lastBody, fixed, _, _, hg, hn, hl, he, hfb, heq⟩ |
      ⟨cur, fixed, _, _, hg, hn, hfb, heq⟩
  · rcases hskip with hs1 | hs2
    · rw [hs1] at hne; simp at hne
    · rw [hs2] at hmem; simp at hmem
  · obtain ⟨t, hl2, hty, hv⟩ := fixBody_lastLeaf sec.body b2 hfb
    exact ⟨{ sec with body := b2 }, t,
      by rw [heq]; exact getPart_setPart_same s sec.name _ hmem',
      hl2, hty, hv⟩
  · obtain ⟨t, hl2, hty, hv⟩ := fixBody_lastLeaf _ fixed hfb
    refine ⟨_, t,
      by rw [heq]; exact getPart_setPart_same s sec.name _ hmem',
      ?_, hty, hv⟩
    rw [lastLeafOfList_append_single]
    exact hl2
  · obtain ⟨t, hl2, hty, hv⟩ := fixBody_lastLeaf _ fixed hfb
    exact ⟨{ cur with body := fixed }, t,
      by rw [heq]; exact getPart_setPart_same s sec.name _ hmem',
      hl2, hty, hv⟩

/-- Witness for the amended C4 at a concrete first merge. -/
theorem c4_witness :
    ∃ part t,
      (mergeOne initialState
        (settingsSecOf (libStmt "Collections"))).1.getPart
          (settingsSecOf (libStmt "Collections")).name = some part ∧
      lastLeafOfList part.body = some t ∧
      t.type = "EOL" ∧ t.value = "\n" :=
  c4_terminating_newline initialState (settingsSecOf (libStmt "Collections"))
    rfl rfl rfl

/-- Counterexample to claim C4's "terminated by exactly one line break":
merging a section whose last statement already ends with a newline
end-of-line token appends a second newline token, so the accumulator's
last statement ends with two line breaks (the first statement keeps
one). -/
theorem c4_counterexample :
    (mergeOne c4State c4NewSec).2 = true ∧
    ((mergeOne c4State c4NewSec).1.getPart "SettingSection").map
        (fun part =>
          part.body.map (fun n => trailingNewlineTokens (stmtTokens n)))
      = some [1, 2] ∧ (2 : Nat) ≠ 1 :=
  ⟨rfl, rfl, by decide⟩

/-! Statement-content ("cores") lemmas: the line-break normalization
never changes a node's statement content, and the TestCases extension
appends the new test bodies' content. -/

theorem stripTrailEOL_cons (t : Token) (l : List Token) :
    stripTrailEOL (t :: l) =
      (match stripTrailEOL l with
       | [] => if t.type == "EOL" then [] else [t]
       | r => t :: r) := rfl

theorem coreOfList_append : ∀ xs ys : List Node,
    coreOfList (xs ++ ys) = coreOfList xs ++ coreOfList ys
  | [], ys => rfl
  | x :: rest, ys => by
      show coreOfNode x ++ coreOfList (rest ++ ys)
        = (coreOfNode x ++ coreOfList rest) ++ coreOfList ys
      rw [coreOfList_append rest ys, List.append_assoc]

theorem fixTokens_core : ∀ ts ts', fixTokens ts = some ts' →
    stripTrailEOL ts' = stripTrailEOL ts
  | [], _, h => by simp [fixTokens] at h
  | [t], ts', h => by
      unfold fixTokens at h
      by_cases hc : (t.type == "EOL" && t.value == "") = true
      · rw [if_pos hc] at h
        obtain rfl : ts' = [{ t with value := "\n" }] := (Option.some.inj h).symm
        simp only [Bool.and_eq_true, beq_iff_eq] at hc
        show stripTrailEOL [{ t with value := "\n" }] = stripTrailEOL [t]
        simp [stripTrailEOL, hc.1]
      · rw [if_neg hc] at h
        obtain rfl : ts' = [t, synthEOL] := (Option.some.inj h).symm
        rfl
  | t :: u :: rest, ts', h => by
      unfold fixTokens at h
      cases hf : fixTokens (u :: rest) with
      | none => rw [hf] at h; simp at h
      | some ts2 =>
          rw [hf] at h
          simp only [Option.map_some', Option.some.injEq] at h
          have ih := fixTokens_core (u :: rest) ts2 hf
          rw [← h]
          show stripTrailEOL (t :: ts2) = stripTrailEOL (t :: u :: rest)
          rw [stripTrailEOL_cons t ts2, stripTrailEOL_cons t (u :: rest), ih]

mutual

theorem fixNode_core : ∀ n n', fixNode n = some n' →
    coreOfNode n' = coreOfNode n
  | .stmt nm ts, n', h => by
      unfold fixNode at h
      cases hf : fixTokens ts with
      | none => rw [hf] at h; simp at h
      | some ts2 =>
          rw [hf] at h
          simp only [Option.map_some', Option.some.injEq] at h
          rw [← h]
          show [stripTrailEOL ts2] = [stripTrailEOL ts]
          rw [fixTokens_core ts ts2 hf]
  | .block nm hd b, n', h => by
      unfold fixNode at h
      cases hf : fixBody b with
      | none => rw [hf] at h; simp at h
      | some b2 =>
          rw [hf] at h
          simp only [Option.map_some', Option.some.injEq] at h
          rw [← h]
          show stripTrailEOL hd :: coreOfList b2
            = stripTrailEOL hd :: coreOfList b
          rw [fixBody_core b b2 hf]

theorem fixBody_core : ∀ b b', fixBody b = some b' →
    coreOfList b' = coreOfList b
  | [], _, h => by simp [fixBody] at h
  | [x], b', h => by
      unfold fixBody at h
      cases hf : fixNode x with
      | none => rw [hf] at h; simp at h
      | some x2 =>
          rw [hf] at h
          simp only [Option.map_some', Option.some.injEq] at h
          rw [← h]
          show coreOfNode x2 ++ [] = coreOfNode x ++ []
          rw [fixNode_core x x2 hf]
  | x :: y :: rest, b', h => by
      unfold fixBody at h
      cases hf : fixBody (y :: rest) with
      | none => rw [hf] at h; simp at h
      | some b2 =>
          rw [hf] at h
          simp only [Option.map_some', Option.some.injEq] at h
          rw [← h]
          show coreOfNode x ++ coreOfList b2
            = coreOfNode x ++ coreOfList (y :: rest)
          rw [fixBody_core (y :: rest) b2 hf]

end

theorem extendLoop_ok : ∀ (tcs acc : List Node),
    (extendLoop acc tcs).2 = true →
    (extendLoop acc tcs).1 = acc ++ testBodiesOf tcs
  | [], acc, h => by simp [extendLoop, testBodiesOf]
  | tc :: rest, acc, h => by
      unfold extendLoop at h ⊢
      cases hb : tc.bodyOf with
      | none => rw [hb] at h; simp at h
      | some b =>
          rw [hb] at h
          have ih := extendLoop_ok rest (acc ++ b) h
          show (extendLoop (acc ++ b) rest).1
            = acc ++ testBodiesOf (tc :: rest)
          rw [ih, List.append_assoc]
          congr 1
          show b ++ testBodiesOf rest
            = (Node.bodyOf tc).getD [] ++ testBodiesOf rest
          rw [hb]
          rfl

theorem eq_dropLast_append_of_getLast? {α : Type} : ∀ (l : List α) (x : α),
    l.getLast? = some x → l = l.dropLast ++ [x]
  | [], x, h => by simp at h
  | [a], x, h => by
      simp only [List.getLast?_singleton, Option.some.injEq] at h
      simp [h]
  | a :: b :: rest, x, h => by
      rw [List.getLast?_cons_cons] at h
      have ih := eq_dropLast_append_of_getLast? (b :: rest) x h
      show a :: (b :: rest) = (a :: b :: rest).dropLast ++ [x]
      rw [List.dropLast_cons₂]
      rw [List.cons_append]
      rw [← ih]

theorem partCoresOpt_setPart_same (s : InterpState) (k : String) (sc : Sec)
    (hk : k ∈ docPartNames) :
    partCoresOpt (s.setPart k sc) k = some (coreOfList sc.body) := by
  unfold partCoresOpt
  rw [getPart_setPart_same s k sc hk]
  rfl

theorem partCoresOpt_setPart_other (s : InterpState) (k : String) (sc : Sec)
    (k' : String) (h : k' ≠ k) :
    partCoresOpt (s.setPart k sc) k' = partCoresOpt s k' := by
  unfold partCoresOpt
  rw [getPart_setPart_other s k sc k' h]

theorem partsNamed_setPart (s : InterpState) (key : String) (sc : Sec)
    (hkeymem : key ∈ docPartNames) (hnm : PartsNamed s)
    (hkey : sc.name = key) : PartsNamed (s.setPart key sc) := by
  intro k sec' hget
  by_cases hk : k = key
  · subst hk
    rw [getPart_setPart_same s k sc hkeymem] at hget
    rw [← Option.some.inj hget]
    exact hkey
  · rw [getPart_setPart_other s key sc k hk] at hget
    exact hnm k sec' hget

theorem partCoresOpt_initial (k : String) :
    partCoresOpt initialState k = none := by
  unfold partCoresOpt InterpState.getPart
  split <;> rfl

theorem partsNamed_initial : PartsNamed initialState := by
  intro k sec hget
  unfold InterpState.getPart at hget
  split at hget <;> simp [initialState] at hget

/-- One successful merge step changes exactly the statement content that
`coresStep` describes: a first section installs its content, a TestCases
section appends its test bodies' content, any other kind appends its
whole body content; other kinds' parts are untouched. -/
theorem mergeOne_cores (s : InterpState) (sec : Sec)
    (hok : (mergeOne s sec).2 = true) (hnm : PartsNamed s) :
    ∀ k, k ∈ docPartNames →
      partCoresOpt (mergeOne s sec).1 k
        = coresStep k (partCoresOpt s k) sec := by
  intro k hk
  rcases mergeOne_success_cases s sec hok with
      ⟨hskip, heq⟩ |
      ⟨b2, h1, h2, hg, hfb, heq⟩ |
      ⟨cur, n, h, lastBody, fixed, h1, h2, hg, hn, hl, he, hfb, heq⟩ |
      ⟨cur, fixed, h1, h2, hg, hn, hfb, heq⟩
  · rw [heq]
    unfold coresStep
    rcases hskip with hem | hcon
    · rw [if_neg (by simp [hem])]
    · have hne : sec.name ≠ k := by
        intro hkk
        rw [hkk] at hcon
        have hmem : docPartNames.contains k = true := by simpa using hk
        rw [hmem] at hcon
        exact absurd hcon (by decide)
      rw [if_neg (by simp [hne])]
  · rw [heq]
    by_cases hkk : k = sec.name
    · subst hkk
      rw [partCoresOpt_setPart_same s sec.name _ hk]
      unfold coresStep
      rw [if_pos (by simp [h1])]
      have hst : partCoresOpt s sec.name = none := by
        unfold partCoresOpt; rw [hg]; rfl
      rw [hst]
      show some (coreOfList b2) = some (coreOfList sec.body)
      rw [fixBody_core sec.body b2 hfb]
    · have hne : sec.name ≠ k := fun hh => hkk hh.symm
      rw [partCoresOpt_setPart_other s sec.name _ k hkk]
      unfold coresStep
      rw [if_neg (by simp [hne])]
  · rw [heq]
    have hcurname : cur.name = sec.name := hnm sec.name cur hg
    have hsecTC : sec.name = "TestCaseSection" := by rw [← hcurname, hn]
    by_cases hkk : k = sec.name
    · subst hkk
      rw [partCoresOpt_setPart_same s sec.name _ hk]
      unfold coresStep
      rw [if_pos (by simp [h1])]
      have hst : partCoresOpt s sec.name = some (coreOfList cur.body) := by
        unfold partCoresOpt; rw [hg]; rfl
      rw [hst]
      rw [if_pos (by simp [hsecTC])]
      show some (coreOfList (cur.body.dropLast ++ [Node.block n h fixed]))
        = some (coreOfList cur.body ++ coreOfList (testBodiesOf sec.body))
      congr 1
      have hfix : coreOfList fixed
          = coreOfList lastBody ++ coreOfList (testBodiesOf sec.body) := by
        rw [fixBody_core _ fixed hfb, extendLoop_ok sec.body lastBody he,
          coreOfList_append]
      have hdecomp : cur.body
          = cur.body.dropLast ++ [Node.block n h lastBody] :=
        eq_dropLast_append_of_getLast? cur.body _ hl
      conv_rhs => rw [hdecomp]
      rw [coreOfList_append, coreOfList_append, List.append_assoc]
      congr 1
      show coreOfNode (Node.block n h fixed) ++ []
        = (coreOfNode (Node.block n h lastBody) ++ [])
          ++ coreOfList (testBodiesOf sec.body)
      simp only [List.append_nil]
      show stripTrailEOL h :: coreOfList fixed
        = (stripTrailEOL h :: coreOfList lastBody)
          ++ coreOfList (testBodiesOf sec.body)
      rw [hfix, List.cons_append]
    · have hne : sec.name ≠ k := fun hh => hkk hh.symm
      rw [partCoresOpt_setPart_other s sec.name _ k hkk]
      unfold coresStep
      rw [if_neg (by simp [hne])]
  · rw [heq]
    have hcurname : cur.name = sec.name := hnm sec.name cur hg
    have hsecNot : sec.name ≠ "TestCaseSection" := by
      rw [← hcurname]; exact hn
    by_cases hkk : k = sec.name
    · subst hkk
      rw [partCoresOpt_setPart_same s sec.name _ hk]
      unfold coresStep
      rw [if_pos (by simp [h1])]
      have hst : partCoresOpt s sec.name = some (coreOfList cur.body) := by
        unfold partCoresOpt; rw [hg]; rfl
      rw [hst]
      rw [if_neg (by simp [hsecNot])]
      show some (coreOfList fixed)
        = some (coreOfList cur.body ++ coreOfList sec.body)
      rw [fixBody_core _ fixed hfb, coreOfList_append]
    · have hne : sec.name ≠ k := fun hh => hkk hh.symm
      rw [partCoresOpt_setPart_other s sec.name _ k hkk]
      unfold coresStep
      rw [if_neg (by simp [hne])]

theorem mergeOne_partsNamed (s : InterpState) (sec : Sec)
    (hok : (mergeOne s sec).2 = true) (hnm : PartsNamed s) :
    PartsNamed (mergeOne s sec).1 := by
  rcases mergeOne_success_cases s sec hok with
      ⟨_, heq⟩ |
      ⟨b2, h1, h2, hg, hfb, heq⟩ |
      ⟨cur, n, h, lastBody, fixed, h1, h2, hg, hn, hl, he, hfb, heq⟩ |
      ⟨cur, fixed, h1, h2, hg, hn, hfb, heq⟩
  · rw [heq]; exact hnm
  · rw [heq]
    exact partsNamed_setPart s sec.name _ (by simpa using h2) hnm rfl
  · rw [heq]
    exact partsNamed_setPart s sec.name _ (by simpa using h2) hnm
      (hnm sec.name cur hg)
  · rw [heq]
    exact partsNamed_setPart s sec.name _ (by simpa using h2) hnm
      (hnm sec.name cur hg)

theorem mergeSections_cores : ∀ (l : List Sec) (s : InterpState),
    (mergeSections s l).2 = true → PartsNamed s →
    PartsNamed (mergeSections s l).1 ∧
    ∀ k, k ∈ docPartNames →
      partCoresOpt (mergeSections s l).1 k
        = coresAfter k (partCoresOpt s k) l
  | [], s, hok, hnm => ⟨hnm, fun k hk => rfl⟩
  | sec :: rest, s, hok, hnm => by
      by_cases h1 : (mergeOne s sec).2 = true
      · have heq : mergeSections s (sec :: rest)
            = mergeSections (mergeOne s sec).1 rest := by
          show (if (mergeOne s sec).2 = true then
              mergeSections (mergeOne s sec).1 rest
            else ((mergeOne s sec).1, false)) = _
          rw [if_pos h1]
        rw [heq] at hok ⊢
        have hnm1 : PartsNamed (mergeOne s sec).1 :=
          mergeOne_partsNamed s sec h1 hnm
        obtain ⟨hnm2, hcores⟩ :=
          mergeSections_cores rest (mergeOne s sec).1 hok hnm1
        refine ⟨hnm2, fun k hk => ?_⟩
        rw [hcores k hk, mergeOne_cores s sec h1 hnm k hk]
        rfl
      · have h1' : (mergeOne s sec).2 = false := by simpa using h1
        have heq : mergeSections s (sec :: rest)
            = ((mergeOne s sec).1, false) := by
          show (if (mergeOne s sec).2 = true then
              mergeSections (mergeOne s sec).1 rest
            else ((mergeOne s sec).1, false)) = _
          rw [if_neg (by simp [h1'])]
        rw [heq] at hok
        simp at hok

theorem coresAfter_append (k : String) :
    ∀ (l₁ l₂ : List Sec) (st : Option (List (List Token))),
    coresAfter k st (l₁ ++ l₂) = coresAfter k (coresAfter k st l₁) l₂
  | [], l₂, st => rfl
  | sec :: rest, l₂, st => by
      show coresAfter k (coresStep k st sec) (rest ++ l₂) = _
      rw [coresAfter_append k rest l₂ (coresStep k st sec)]
      rfl

theorem allSections_cons (src : String) (m : Model)
    (rest : List (String × Model)) :
    allSections ((src, m) :: rest) = m.sections ++ allSections rest := by
  simp [allSections]

/-- A successful `evaluateModel` call ran the merge loop to completion
on the block-mode-updated state. -/
theorem evaluateModel_success (s : InterpState) (src : String) (m : Model)
    (d : Option String)
    (hs : (evaluateModel s src m d).res.success = true) :
    (evaluateModel s src m d).state
      = (mergeSections (blockModeUpdate s).1 m.sections).1 ∧
    (mergeSections (blockModeUpdate s).1 m.sections).2 = true := by
  unfold evaluateModel at hs ⊢
  by_cases hemp : m.sections.isEmpty = true
  · rw [if_pos hemp] at hs
    exact absurd (show false = true from hs) (by simp)
  · rw [if_neg hemp] at hs ⊢
    cases hc : checkModel src m with
    | some err =>
        rw [hc] at hs
        exact absurd (show false = true from hs) (by simp)
    | none =>
        rw [hc] at hs
        cases d with
        | some e =>
            exact absurd (show false = true from hs) (by simp)
        | none =>
            by_cases hok : (mergeSections (blockModeUpdate s).1
                m.sections).2 = true
            · refine ⟨?_, hok⟩
              show (if (mergeSections (blockModeUpdate s).1 m.sections).2
                  = true then _ else _ : EvalOutput).state = _
              rw [if_pos hok]
            · have hok' : (mergeSections (blockModeUpdate s).1
                  m.sections).2 = false := by simpa using hok
              have hs2 : (if (mergeSections (blockModeUpdate s).1
                  m.sections).2 = true then
                    ({ res := { success := true, message := none
                              , result := none }
                     , state := (mergeSections (blockModeUpdate s).1
                         m.sections).1
                     , stderr := (blockModeUpdate s).2 } : EvalOutput)
                  else
                    { res := { success := false
                             , message := some ("Error while evaluating: "
                                 ++ hostExceptionText)
                             , result := none }
                    , state := (mergeSections (blockModeUpdate s).1
                        m.sections).1
                    , stderr := (blockModeUpdate s).2
                        ++ [hostExceptionText] }).res.success = true := hs
              rw [if_neg (by simp [hok'])] at hs2
              exact absurd (show false = true from hs2) (by simp)

theorem getPart_blockModeUpdate (s : InterpState) (k : String) :
    (blockModeUpdate s).1.getPart k = s.getPart k := by
  rw [blockModeUpdate_eq]
  unfold InterpState.getPart
  split <;> rfl

theorem partCoresOpt_blockModeUpdate (s : InterpState) (k : String) :
    partCoresOpt (blockModeUpdate s).1 k = partCoresOpt s k := by
  unfold partCoresOpt
  rw [getPart_blockModeUpdate]

/-- A successful evaluation sequence accumulates, per section kind,
exactly the `coresStep` contributions of its fragments' sections in
submission order. -/
theorem evalChain_cores : ∀ (frags : List (String × Model))
    (s s' : InterpState),
    evalChain s frags = some s' → PartsNamed s →
    PartsNamed s' ∧ ∀ k, k ∈ docPartNames →
      partCoresOpt s' k
        = coresAfter k (partCoresOpt s k) (allSections frags)
  | [], s, s', h, hnm => by
      have hs : s = s' := Option.some.inj h
      subst hs
      exact ⟨hnm, fun k hk => rfl⟩
  | (src, m) :: rest, s, s', h, hnm => by
      by_cases hs : (evaluateModel s src m none).res.success = true
      · have heq : evalChain s ((src, m) :: rest)
            = evalChain (evaluateModel s src m none).state rest := by
          show (if (evaluateModel s src m none).res.success = true then
              evalChain (evaluateModel s src m none).state rest
            else none) = _
          rw [if_pos hs]
        rw [heq] at h
        obtain ⟨hstate, hmerge⟩ := evaluateModel_success s src m none hs
        have hnmb : PartsNamed (blockModeUpdate s).1 := by
          intro k sc hget
          rw [getPart_blockModeUpdate] at hget
          exact hnm k sc hget
        have hnm1 : PartsNamed (evaluateModel s src m none).state := by
          rw [hstate]
          exact (mergeSections_cores m.sections (blockModeUpdate s).1 hmerge
            hnmb).1
        obtain ⟨hnm', hcores⟩ := evalChain_cores rest
          (evaluateModel s src m none).state s' h hnm1
        refine ⟨hnm', fun k hk => ?_⟩
        rw [hcores k hk]
        have hmid : partCoresOpt (evaluateModel s src m none).state k
            = coresAfter k (partCoresOpt s k) m.sections := by
          rw [hstate]
          have h2 := (mergeSections_cores m.sections (blockModeUpdate s).1
            hmerge hnmb).2 k hk
          rw [partCoresOpt_blockModeUpdate] at h2
          exact h2
        rw [hmid, allSections_cons, coresAfter_append]
      · have heq : evalChain s ((src, m) :: rest) = none := by
          show (if (evaluateModel s src m none).res.success = true then
              evalChain (evaluateModel s src m none).state rest
            else none) = _
          rw [if_neg hs]
        rw [heq] at h
        simp at h

/-- Claim C3: after every sequence of successful evaluations from the
initial state, `full_doc` renders the stored parts in the fixed kind
order Comment, Settings, Variables, Keywords, TestCases
(`fullDocOrder`), and each kind's accumulated statement content is
exactly the submission-order fold of the fragments' contributions
(`coresAfter`): a first section of a kind contributes its whole
statement content, a later TestCases section contributes its test
bodies' content appended at the end, a later section of any other kind
its whole body content appended at the end — merging never reorders or
drops an earlier fragment's statements.  Rendering goes through the
spec-modelled `ast_to_code`. -/
theorem c3_order_preservation (frags : List (String × Model))
    (s' : InterpState) (h : evalChain initialState frags = some s') :
    fullDoc s' = stripStr (String.intercalate "\n"
      (fullDocOrder.filterMap (renderPart s'))) ∧
    ∀ k, k ∈ docPartNames →
      partCoresOpt s' k = coresAfter k none (allSections frags) := by
  obtain ⟨hnm', hcores⟩ := evalChain_cores frags initialState s' h
    partsNamed_initial
  refine ⟨rfl, fun k hk => ?_⟩
  have hthis := hcores k hk
  rw [partCoresOpt_initial k] at hthis
  exact hthis

/-- Witness for C3 on a concrete one-fragment evaluation sequence. -/
theorem c3_witness :
    fullDoc c3WitState = stripStr (String.intercalate "\n"
      (fullDocOrder.filterMap (renderPart c3WitState))) ∧
    ∀ k, k ∈ docPartNames →
      partCoresOpt c3WitState k
        = coresAfter k none (allSections [("srcHello", fragHello)]) :=
  c3_order_preservation [("srcHello", fragHello)] c3WitState rfl

/-- Claim C5: merging a test-case section into an existing TestCases
accumulator extends the accumulator's last test instead of adding a new
test: the number of test entries is unchanged, the earlier entries are
untouched, and the new section's test bodies' statement content is
concatenated onto the end — so sequential bare-statement evaluations
keep one test header with all statements nested under it. -/
theorem c5_extends_last_test (s : InterpState) (sec cur : Sec)
    (hget : s.getPart "TestCaseSection" = some cur)
    (hcur : cur.name = "TestCaseSection")
    (hsec : sec.name = "TestCaseSection")
    (hbody : sec.body.isEmpty = false)
    (hok : (mergeOne s sec).2 = true) :
    ∃ part, (mergeOne s sec).1.getPart "TestCaseSection" = some part ∧
      part.body.length = cur.body.length ∧
      part.body.dropLast = cur.body.dropLast ∧
      coreOfList part.body
        = coreOfList cur.body ++ coreOfList (testBodiesOf sec.body) := by
  rcases mergeOne_success_cases s sec hok with
      ⟨hskip, _⟩ |
      ⟨b2, h1, h2, hg, hfb, heq⟩ |
      ⟨cur2, n, h, lastBody, fixed, h1, h2, hg, hn, hl, he, hfb, heq⟩ |
      ⟨cur2, fixed, h1, h2, hg, hn, hfb, heq⟩
  · rcases hskip with hem | hcon
    · rw [hem] at hbody
      exact absurd hbody (by decide)
    · rw [hsec] at hcon
      exact absurd hcon (by decide)
  · rw [hsec, hget] at hg
    exact absurd hg (by simp)
  · rw [hsec, hget] at hg
    obtain rfl : cur = cur2 := Option.some.inj hg
    refine ⟨{ cur with
        body := cur.body.dropLast ++ [Node.block n h fixed] },
      ?_, ?_, ?_, ?_⟩
    · rw [heq, hsec]
      exact getPart_setPart_same s "TestCaseSection" _ (by decide)
    · have hdecomp : cur.body
          = cur.body.dropLast ++ [Node.block n h lastBody] :=
        eq_dropLast_append_of_getLast? cur.body _ hl
      show (cur.body.dropLast ++ [Node.block n h fixed]).length
        = cur.body.length
      conv_rhs => rw [hdecomp]
      simp
    · show (cur.body.dropLast ++ [Node.block n h fixed]).dropLast
        = cur.body.dropLast
      rw [List.dropLast_concat]
    · have hfix : coreOfList fixed
          = coreOfList lastBody ++ coreOfList (testBodiesOf sec.body) := by
        rw [fixBody_core _ fixed hfb, extendLoop_ok sec.body lastBody he,
          coreOfList_append]
      have hdecomp : cur.body
          = cur.body.dropLast ++ [Node.block n h lastBody] :=
        eq_dropLast_append_of_getLast? cur.body _ hl
      show coreOfList (cur.body.dropLast ++ [Node.block n h fixed]) = _
      conv_rhs => rw [hdecomp]
      rw [coreOfList_append, coreOfList_append, List.append_assoc]
      congr 1
      show coreOfNode (Node.block n h fixed) ++ []
        = (coreOfNode (Node.block n h lastBody) ++ [])
          ++ coreOfList (testBodiesOf sec.body)
      simp only [List.append_nil]
      show stripTrailEOL h :: coreOfList fixed
        = (stripTrailEOL h :: coreOfList lastBody)
          ++ coreOfList (testBodiesOf sec.body)
      rw [hfix, List.cons_append]
  · rw [hsec, hget] at hg
    obtain rfl : cur = cur2 := Option.some.inj hg
    exact absurd hcur hn

/-- Witness for C5: the second of two bare-statement evaluations extends
the single default test. -/
theorem c5_witness :
    ∃ part,
      (mergeOne stateAfterHello
        (tcSecOf (logStmt "world"))).1.getPart "TestCaseSection"
        = some part ∧
      part.body.length = curHello.body.length ∧
      part.body.dropLast = curHello.body.dropLast ∧
      coreOfList part.body
        = coreOfList curHello.body
          ++ coreOfList (testBodiesOf (tcSecOf (logStmt "world")).body) :=
  c5_extends_last_test stateAfterHello (tcSecOf (logStmt "world")) curHello
    rfl rfl rfl rfl rfl

/-- Claim C7 amended: for a bare completion request when the current
section has history, the prefix is the document rendered with the
current section last, a newline, and the *leading* run of tabs/spaces of
the rendered document's last line as indentation; when the rendered
document contains no line separator, the prefix is the rendered document
itself and a separator with no indentation is inserted before the code
in the full code. -/
theorem c7_leading_indent (s : InterpState) (code : String)
    (hbare : strStartsWith (stripStr code) "***" = false)
    (hhist : (s.getPart s.lastSectionName).isSome = true) :
    (containsNewline (computeFullDoc s s.lastSectionName) = true →
      (computeEvaluateText s code "completions").1 =
        { pre := computeFullDoc s s.lastSectionName ++ "\n"
            ++ leadingIndent (lastLineOf (computeFullDoc s s.lastSectionName))
        , fullCode := (computeFullDoc s s.lastSectionName ++ "\n"
            ++ leadingIndent
                (lastLineOf (computeFullDoc s s.lastSectionName)))
            ++ code }) ∧
    (containsNewline (computeFullDoc s s.lastSectionName) = false →
      (computeEvaluateText s code "completions").1 =
        { pre := computeFullDoc s s.lastSectionName
        , fullCode := computeFullDoc s s.lastSectionName ++ "\n"
            ++ code }) := by
  constructor
  · intro hnl
    unfold computeEvaluateText
    rw [if_pos (show (("completions" : String) == "completions") = true
      from rfl)]
    rw [if_neg (by simp [hbare]), if_pos hhist, if_pos hnl]
  · intro hnl
    unfold computeEvaluateText
    rw [if_pos (show (("completions" : String) == "completions") = true
      from rfl)]
    rw [if_neg (by simp [hbare]), if_pos hhist, if_neg (by simp [hnl])]

/-- Witness for the amended C7 at a concrete state with test-case
history. -/
theorem c7_witness :
    (containsNewline (computeFullDoc c7State c7State.lastSectionName)
        = true →
      (computeEvaluateText c7State "Should Be Equal  1  1"
          "completions").1 =
        { pre := computeFullDoc c7State c7State.lastSectionName ++ "\n"
            ++ leadingIndent
                (lastLineOf (computeFullDoc c7State c7State.lastSectionName))
        , fullCode := (computeFullDoc c7State c7State.lastSectionName
            ++ "\n"
            ++ leadingIndent
                (lastLineOf (computeFullDoc c7State c7State.lastSectionName)))
            ++ "Should Be Equal  1  1" }) ∧
    (containsNewline (computeFullDoc c7State c7State.lastSectionName)
        = false →
      (computeEvaluateText c7State "Should Be Equal  1  1"
          "completions").1 =
        { pre := computeFullDoc c7State c7State.lastSectionName
        , fullCode := computeFullDoc c7State c7State.lastSectionName
            ++ "\n" ++ "Should Be Equal  1  1" }) :=
  c7_leading_indent c7State "Should Be Equal  1  1" rfl rfl

/-- Counterexample to claim C7 as stated: the indentation is the leading
whitespace of the last line, not its trailing whitespace — on a state
whose last rendered line is `    Log    hello`, the source's prefix ends
with four spaces of indentation while the claim's trailing-whitespace
prefix ends with none. -/
theorem c7_counterexample :
    (computeEvaluateText c7State "Should Be Equal  1  1"
        "completions").1.pre ≠ claimC7Pre c7State ∧
    (computeEvaluateText c7State "Should Be Equal  1  1"
        "completions").1.pre
      = "*** Test Case ***\nDefault Task/Test\n    Log    hello\n    " ∧
    claimC7Pre c7State
      = "*** Test Case ***\nDefault Task/Test\n    Log    hello\n" := by
  refine ⟨?_, rfl, rfl⟩
  have h1 : (computeEvaluateText c7State "Should Be Equal  1  1"
      "completions").1.pre
      = "*** Test Case ***\nDefault Task/Test\n    Log    hello\n    " := rfl
  have h2 : claimC7Pre c7State
      = "*** Test Case ***\nDefault Task/Test\n    Log    hello\n" := rfl
  rw [h1, h2]
  decide

end RFInterp
